import Mathlib

/-!
Verification of the counterfeiter fake generator (src/generator/generator.go).

The Go code is shallowly embedded: Go strings are `String` (in Lean 4.14 a
wrapper around `List Char`; the ASCII patterns used by the generator occur at
the same positions in the byte view and the codepoint view, so byte-based Go
string operations coincide with the codepoint-based model), Go slices are
`List`, Go maps are association lists consulted by key (Go's zero-value map
lookup is modelled explicitly), and the mutation of the receiver `*Fake` is
explicit state passing.  The `go/types` descriptors consumed by `Generate`
are modelled by the inductive `GoType`, with one constructor per case of the
type switches in `typeFor` and `addImportsFor` plus an `unknown` constructor
for the `default` cases.
-/

/-- One import of the generated file: `Import` from generator.go
(fields `Alias` and `Path`). -/
structure Import where
  alias_ : String
  path : String
deriving DecidableEq, Repr

instance : Inhabited Import := ⟨⟨"", ""⟩⟩

/-- A parameter descriptor: `Param` from generator.go. -/
structure Param where
  name : String
  type : String
  isVariadic : Bool
  isSlice : Bool
deriving DecidableEq, Repr

instance : Inhabited Param := ⟨⟨"", "", false, false⟩⟩

/-- A result descriptor: `Return` from generator.go. -/
structure Return where
  name : String
  type : String
deriving DecidableEq, Repr

/-- A method of the fake: `Method` from generator.go.  `Generate` never
assigns `Args`/`Rets`, so they keep the Go zero value `""`. -/
structure Method where
  fakeName : String
  name : String
  params : List Param
  args : String
  returns : List Return
  rets : String
deriving DecidableEq, Repr

/-- The aggregate being generated: `Fake` from generator.go.  The
`go/types`-valued fields (`Packages`, `Package`, `Interface`) live in the
external resolver and are modelled separately by `LoadedPackage`. -/
structure Fake where
  destinationPackage : String
  name : String
  interfaceAlias : String
  interfaceName : String
  interfacePackage : String
  imports : List Import
  methods : List Method
deriving DecidableEq, Repr

/-- Helper for `unvendor`: the suffix of `s` after the *last* occurrence of
`"/vendor/"`, or `none` if the marker does not occur.  This models
`strings.LastIndex(s, "/vendor/")` followed by `s[i+len("/vendor/"):]`. -/
def afterLastVendorMarker : List Char → Option (List Char)
  | [] => none
  | c :: cs =>
    match afterLastVendorMarker cs with
    | some r => some r
    | none =>
      if (c :: cs).take 8 = "/vendor/".data then some ((c :: cs).drop 8) else none

/-- `unvendor` from generator.go: strip everything up to and including the
last `"/vendor/"` segment; otherwise strip a leading `"vendor/"`. -/
def unvendor (s : String) : String :=
  match afterLastVendorMarker s.data with
  | some r => ⟨r⟩
  | none => if s.data.take 7 = "vendor/".data then ⟨s.data.drop 7⟩ else s

/-- Model of `strings.TrimSpace`: drop leading and trailing whitespace.
(`String.trim` itself is byte-position based and does not reduce in the
kernel, so the equivalent codepoint-level computation is spelled out.) -/
def trimSpace (s : String) : String :=
  ⟨((s.data.dropWhile Char.isWhitespace).reverse.dropWhile Char.isWhitespace).reverse⟩

/-- `(*Fake).AddImport` from generator.go: trim and devendorize the path; if
an entry with that path exists return it (and leave the fake unchanged),
otherwise append a new entry.  The returned pair is (updated fake, returned
`Import`). -/
def Fake.AddImport (f : Fake) (al path : String) : Fake × Import :=
  let path := unvendor (trimSpace path)
  let al := trimSpace al
  match f.imports.find? (fun imp => imp.path = path) with
  | some imp => (f, imp)
  | none =>
    let result : Import := { alias_ := al, path := path }
    ({ f with imports := f.imports ++ [result] }, result)

/-- Go's `<` on strings: byte-lexicographic comparison.  Bytewise UTF-8
order coincides with codepoint order, so it is computed on the char list. -/
def goStrLtL : List Char → List Char → Bool
  | [], [] => false
  | [], _ :: _ => true
  | _ :: _, [] => false
  | a :: as, b :: bs => decide (a < b) || (decide (a = b) && goStrLtL as bs)

/-- Go's `s1 < s2` on strings. -/
def goStrLt (a b : String) : Bool := goStrLtL a.data b.data

/-- The non-strict order induced by the `less` function handed to
`sort.SliceStable`: `a ≤ b` iff `¬ (b.Path < a.Path)`. -/
def pathLe (a b : Import) : Prop := goStrLt b.path a.path = false

instance : DecidableRel pathLe := fun _ _ => instDecidableEqBool _ _

/-- `(*Fake).sortImports` from generator.go: stable sort of the import list
by path (`sort.SliceStable` with less-relation `Imports[i].Path <
Imports[j].Path`).  `sort.SliceStable`'s contract is exactly "stable sort by
the given relation"; insertion sort is a stable sort and, unlike
`List.mergeSort`, reduces in the kernel. -/
def Fake.sortImports (f : Fake) : Fake :=
  { f with imports := f.imports.insertionSort pathLe }

/-- The list of imports of `l` carrying alias `a`: the entry `byAlias[a]` of
the Go map built by `(*Fake).aliasMap` (values are appended in list order,
so the entry is exactly the in-order filter). -/
def groupFor (l : List Import) (a : String) : List Import :=
  l.filter (fun g => g.alias_ = a)

/-- `(*Fake).hasDuplicateAliases` from generator.go: some alias is carried
by more than one entry of the import list. -/
def hasDuplicateAliases (l : List Import) : Bool :=
  l.any (fun imp => 1 < (groupFor l imp.alias_).length)

/-- The character Go appends for the member at (0-based) group index `j`:
`string('a'+byte(j-1))`.  The addition is `byte` arithmetic — `'a'` plus the
truncated `byte(j-1)` wraps again at 256 — so the appended codepoint is
`(97 + (j-1)) mod 256` (for example NUL for `j = 160`). -/
def suffixChar (j : Nat) : Char :=
  Char.ofNat ((97 + (j - 1)) % 256)

/-- Append the disambiguation suffix for group index `j` to the alias. -/
def appendSuffix (imp : Import) (j : Nat) : Import :=
  { imp with alias_ := imp.alias_.push (suffixChar j) }

/-- The inner `for j` loop of `disambiguateAliases`, iterating over the
snapshot group with counter `j`: whenever the group member at index `j > 0`
has the path of the import being processed, the suffix for `j` is appended
to the current alias. -/
def upGo : List Import → Nat → Import → Import
  | [], _, cur => cur
  | x :: rest, j, cur =>
    upGo rest (j + 1) (if x.path = cur.path ∧ 0 < j then appendSuffix cur j else cur)

/-- The update applied to one entry of `f.Imports` during a single pass of
the `disambiguateAliases` loop.  `snap` is the snapshot of the import list
from the top of the pass (`byAlias` is built from it).  The Go code skips
groups of size one; for such groups the loop would not fire anyway. -/
def updateImport (snap : List Import) (imp : Import) : Import :=
  let imports := groupFor snap imp.alias_
  if imports.length = 1 then imp else upGo imports 0 imp

/-- One full pass of the `for` loop in `disambiguateAliases`: every entry is
rewritten against the snapshot of the list, and whenever an entry whose path
is the interface's defining package was re-aliased, `InterfaceAlias` is set
to its new alias. -/
def Fake.disambiguatePass (f : Fake) : Fake :=
  let snap := f.imports
  let newImports := snap.map (updateImport snap)
  let newAlias :=
    (snap.zip newImports).foldl
      (fun acc p =>
        if p.1.path = f.interfacePackage ∧ p.2.alias_ ≠ p.1.alias_ then p.2.alias_ else acc)
      f.interfaceAlias
  { f with imports := newImports, interfaceAlias := newAlias }

/-- The unbounded `for` loop of `disambiguateAliases`, given enough fuel:
while some alias collides, run another pass.  The Go loop has no bound; the
fuel passed by `Fake.disambiguateAliases` is proved below to reach the
loop's fixed point whenever the paths are duplicate-free, so on that domain
this function is the Go loop. -/
def disambiguateLoop : Nat → Fake → Fake
  | 0, f => f
  | fuel + 1, f =>
    if hasDuplicateAliases f.imports then disambiguateLoop fuel f.disambiguatePass else f

/-- The largest alias length in an import list. -/
def maxAliasLen (l : List Import) : Nat :=
  l.foldr (fun x m => max x.alias_.length m) 0

/-- Fuel sufficient for `disambiguateLoop` to reach its fixed point (proved
below for duplicate-free paths). -/
def fuelBound (l : List Import) : Nat :=
  l.length * (maxAliasLen l + l.length) + 1

/-- `(*Fake).disambiguateAliases` from generator.go: sort the imports by
path, then repeatedly rewrite colliding aliases until none collide. -/
def Fake.disambiguateAliases (f : Fake) : Fake :=
  let f1 := f.sortImports
  if hasDuplicateAliases f1.imports then disambiguateLoop (fuelBound f1.imports) f1 else f1

/-- Channel direction of a `*types.Chan` descriptor (`types.ChanDir`). -/
inductive ChanDir where
  | sendRecv
  | sendOnly
  | recvOnly
deriving DecidableEq, Repr

/-- The `*types.Package` of a named type's object: short name and path. -/
structure GoPkg where
  name : String
  path : String
deriving DecidableEq, Repr

/-- The `*types.TypeName` object of a named type; `pkg` is `none` for
universe-scope names (`error`, ...), mirroring `t.Obj().Pkg() == nil`. -/
structure NamedObj where
  name : String
  pkg : Option GoPkg
deriving DecidableEq, Repr

/-- The resolver's type descriptors, one constructor per case of the type
switches in `typeFor` / `addImportsFor`.  `named none` mirrors
`t.Obj() == nil`; `unknown` covers every `go/types` shape that falls into
the `default` cases (`*types.Signature`, `*types.Struct`,
`*types.Interface`, ...), carrying the reflected type description that the
Go code merely logs. -/
inductive GoType where
  | slice (elem : GoType)
  | array (len : Int) (elem : GoType)
  | pointer (elem : GoType)
  | map (key : GoType) (elem : GoType)
  | chan (dir : ChanDir) (elem : GoType)
  | basic (name : String)
  | named (obj : Option NamedObj)
  | unknown (goDesc : String)
deriving DecidableEq, Repr

/-- Lookup in the Go map `importsMap` (`map[string]Import`): a missing key
yields the zero value `Import{}`. -/
def lookupImport (m : List (String × Import)) (k : String) : Import :=
  match m.find? (fun e => e.1 = k) with
  | some e => e.2
  | none => ⟨"", ""⟩

/-- `typeFor` from generator.go: render a type descriptor to Go type text.
The `nil` argument guard corresponds to no constructor and is dropped; the
cases returning `""` (`t.Obj() == nil`, the missing-case default) are kept. -/
def typeFor (typ : GoType) (importsMap : List (String × Import)) : String :=
  match typ with
  | .slice t => "[]" ++ typeFor t importsMap
  | .array n t => "[" ++ toString n ++ "]" ++ typeFor t importsMap
  | .pointer t => "*" ++ typeFor t importsMap
  | .map k v => "map[" ++ typeFor k importsMap ++ "]" ++ typeFor v importsMap
  | .chan .sendRecv t => "chan " ++ typeFor t importsMap
  | .chan .sendOnly t => "chan<- " ++ typeFor t importsMap
  | .chan .recvOnly t => "<-chan " ++ typeFor t importsMap
  | .basic name => name
  | .named none => ""
  | .named (some obj) =>
    match obj.pkg with
    | none => obj.name
    | some pkg =>
      let imp := lookupImport importsMap (unvendor pkg.path)
      if imp.path = "" then obj.name else imp.alias_ ++ "." ++ obj.name
  | .unknown _ => ""

/-- `(*Fake).addImportsFor` from generator.go: walk the descriptor and
register an import for every named type with a defining package. -/
def Fake.addImportsFor (f : Fake) (typ : GoType) : Fake :=
  match typ with
  | .basic _ => f
  | .pointer t => f.addImportsFor t
  | .map k v => (f.addImportsFor k).addImportsFor v
  | .chan _ t => f.addImportsFor t
  | .named obj =>
    match obj with
    | some o =>
      match o.pkg with
      | some pkg => (f.AddImport pkg.name pkg.path).1
      | none => f
    | none => f
  | .slice t => f.addImportsFor t
  | .array _ t => f.addImportsFor t
  | .unknown _ => f

/-- One method of the interface's method set, as consumed by `Generate`:
`methods[i].Obj().Name()`, the parameter and result types of its
`*types.Signature`, and `sig.Variadic()`. -/
structure MethodSig where
  name : String
  params : List GoType
  results : List GoType
  variadic : Bool
deriving DecidableEq, Repr

/-- The first loop of `Generate`: for each method, add imports for every
result type and then for every parameter type. -/
def Fake.addImportsForSig (f : Fake) (sig : MethodSig) : Fake :=
  sig.params.foldl Fake.addImportsFor (sig.results.foldl Fake.addImportsFor f)

/-- Model of `strings.HasPrefix`. -/
def strHasPre (s pre : String) : Bool :=
  decide (s.data.take pre.data.length = pre.data)

/-- Model of Go's `typ[2:]` on a string that starts with the two ASCII bytes
`[]`: drop the first two characters. -/
def strDrop2 (s : String) : String := ⟨s.data.drop 2⟩

/-- The parameter-building loop of `Generate`: synthetic positional names
`argN` (1-indexed), the variadic flag for the last parameter of a variadic
signature, the `[]` → `...` rewrite of the rendered type for that parameter,
and the slice flag computed from the (possibly rewritten) type text. -/
def buildParam (importsMap : List (String × Import)) (sig : MethodSig) (i : Nat)
    (t : GoType) : Param :=
  let isVariadic := decide (i = sig.params.length - 1) && sig.variadic
  let typ0 := typeFor t importsMap
  let typ := if isVariadic then "..." ++ strDrop2 typ0 else typ0
  { name := "arg" ++ toString (i + 1), type := typ, isVariadic := isVariadic,
    isSlice := strHasPre typ "[]" }

/-- Index-aware map, used to run Go's `for i := range` loops whose body
depends on the index `i`. -/
def buildFrom (step : Nat → α → β) : Nat → List α → List β
  | _, [] => []
  | i, t :: ts => step i t :: buildFrom step (i + 1) ts

/-- All parameters of one method, in declaration order. -/
def buildParams (importsMap : List (String × Import)) (sig : MethodSig) : List Param :=
  buildFrom (buildParam importsMap sig) 0 sig.params

/-- The result-building loop of `Generate`: synthetic positional names
`resultN` (1-indexed) and the rendered type text. -/
def buildReturns (importsMap : List (String × Import)) (sig : MethodSig) : List Return :=
  buildFrom (fun i t => { name := "result" ++ toString (i + 1), type := typeFor t importsMap }) 0
    sig.results

/-- The `Method` value appended to `f.Methods` for one signature. -/
def buildMethod (importsMap : List (String × Import)) (fakeName : String)
    (sig : MethodSig) : Method :=
  { fakeName := fakeName, name := sig.name, params := buildParams importsMap sig,
    args := "", returns := buildReturns importsMap sig, rets := "" }

/-- The association list behind the Go map built by `(*Fake).importsMap`:
one `path ↦ Import` entry per import (paths are unique in any list built by
`AddImport`, so first-match lookup agrees with the Go map). -/
def importsMapList (l : List Import) : List (String × Import) :=
  l.map (fun imp => (imp.path, imp))

/-- `(*Fake).Generate` up to template execution, with the resolver's method
set passed in: discover imports (results before params) for every method,
disambiguate aliases, build the path-keyed imports map, and append the built
methods.  The template then renders the returned `Fake`; it is a pure
function of it, so every property of the emitted text is a property of this
value. -/
def Fake.generateModel (f : Fake) (sigs : List MethodSig) : Fake :=
  let f1 := sigs.foldl Fake.addImportsForSig f
  let f2 := f1.disambiguateAliases
  let m := importsMapList f2.imports
  { f2 with methods := f2.methods ++ sigs.map (buildMethod m f2.name) }

/-- `unexport` from generator.go: lower-case the first rune. -/
def unexport (s : String) : String :=
  match s.data with
  | [] => ""
  | c :: rest => ⟨Char.toLower c :: rest⟩

/-- Model of `strings.Join(xs, sep)`. -/
def strJoin (sep : String) : List String → String
  | [] => ""
  | [x] => x
  | x :: xs => x ++ sep ++ strJoin sep xs

/-- `Params.AsNamedArgsWithTypes` from generator.go: `unexport(name) type`
for each parameter, joined by `", "`. -/
def paramsAsNamedArgsWithTypes (p : List Param) : String :=
  strJoin ", " (p.map (fun x => unexport x.name ++ " " ++ x.type))

/-- `Returns.AsReturnSignature` from generator.go.  Note the loop guard
`i < len(r)` is always true, so in the parenthesised case every type —
including the last — is followed by `", "`. -/
def returnsAsReturnSignature (r : List Return) : String :=
  match r with
  | [] => ""
  | [x] => x.type
  | _ => (r.foldl (fun acc x => acc ++ x.type ++ ", ") "(") ++ ")"

/-- The replacement `html/template` applies to each character of an
interpolated value in text context (the `htmlReplacementTable` of the
escaper: `"`, `&`, `'`, `<`, `>` become entities, NUL becomes U+FFFD).
The fake template's fixed text contains no `<`, so the whole template is
text context and every `{{...}}` value is escaped with exactly this table. -/
def htmlEscapeChar (c : Char) : List Char :=
  if c = Char.ofNat 34 then "&#34;".data
  else if c = '&' then "&amp;".data
  else if c = Char.ofNat 39 then "&#39;".data
  else if c = '<' then "&lt;".data
  else if c = '>' then "&gt;".data
  else if c = Char.ofNat 0 then "�".data
  else [c]

/-- HTML-escape an interpolated value, as `html/template` does for every
action of the fake template. -/
def htmlEscape (s : String) : String := ⟨(s.data.map htmlEscapeChar).flatten⟩

/-- The method declaration line of the fake template
(`func (fake *{{.FakeName}}) {{.Name}}({{.Params.AsNamedArgsWithTypes}})
{{.Returns.AsReturnSignature}} {`), with every interpolation HTML-escaped
exactly as `html/template` renders it. -/
def emitMethodHeader (m : Method) : String :=
  "func (fake *" ++ htmlEscape m.fakeName ++ ") " ++ htmlEscape m.name ++ "(" ++
    htmlEscape (paramsAsNamedArgsWithTypes m.params) ++ ") " ++
    htmlEscape (returnsAsReturnSignature m.returns) ++ " \x7b"

/-- One entry of the `packages.Load` result, as consulted by
`findPackageWithInterface`: package name, package path, whether
`Types`/`Scope` are non-nil, and the top-level scope, recording for each
declared name whether `Lookup` yields a `*types.TypeName`. -/
structure LoadedPackage where
  name : String
  pkgPath : String
  hasTypes : Bool
  scope : List (String × Bool)
deriving DecidableEq, Repr

/-- Whether the loop body of `findPackageWithInterface` accepts a package:
it has type information and looking up the interface name yields a
`*types.TypeName`. -/
def scopeHasTypeName (p : LoadedPackage) (n : String) : Bool :=
  p.hasTypes &&
    (match p.scope.find? (fun e => e.1 = n) with
     | some e => e.2
     | none => false)

/-- `(*Fake).findPackageWithInterface` from generator.go: scan the loaded
packages in order for the first one whose scope declares the interface name
as a type name; record its devendorized path and short name, and register it
as an import.  Packages without type information, or whose lookup misses or
yields a non-type-name, are skipped. -/
def findPackageWithInterface (pkgs : List LoadedPackage) (f : Fake) : Except String Fake :=
  match pkgs.find? (fun p => scopeHasTypeName p f.interfaceName) with
  | none => .error ("cannot find package with interface " ++ f.interfaceName)
  | some pkg =>
    let f1 := { f with interfacePackage := unvendor pkg.pkgPath, interfaceAlias := pkg.name }
    .ok (f1.AddImport f1.interfaceAlias f1.interfacePackage).1

/-- `NewFake` from generator.go, with the result of the external
`packages.Load` passed in (a load error would be returned before any `Fake`
exists): build the initial fake — whose import list is seeded with the
single entry `sync ↦ sync` — and locate the interface. -/
def NewFake (pkgs : List LoadedPackage)
    (interfaceName packagePath fakeName destinationPackage : String) : Except String Fake :=
  let f : Fake :=
    { destinationPackage := destinationPackage, name := fakeName, interfaceAlias := "",
      interfaceName := interfaceName, interfacePackage := packagePath,
      imports := [{ alias_ := "sync", path := "sync" }], methods := [] }
  findPackageWithInterface pkgs f

/-- The values of the Go map `byAlias` (one group per distinct alias).  The
canonical order used here is immaterial: Go iterates the map in an
unspecified order, modelled by the permutations applied in
`disambiguateLoopEnum`. -/
def aliasGroups (l : List Import) : List (List Import) :=
  ((l.map (fun x => x.alias_)).dedup).map (groupFor l)

/-- `(*Fake).hasDuplicateAliases` as literally written: range over the map
values in the order produced by one map iteration and test each group's
size. -/
def hasDupEnum (groups : List (List Import)) : Bool :=
  groups.any (fun g => 1 < g.length)

/-- `disambiguateLoop` with the map-iteration order of every
`hasDuplicateAliases` call made explicit: on the `t`-th call, Go may present
the groups in any order `E t (aliasGroups ...)`. -/
def disambiguateLoopEnum (E : Nat → List (List Import) → List (List Import)) :
    Nat → Nat → Fake → Fake
  | _, 0, f => f
  | t, fuel + 1, f =>
    if hasDupEnum (E t (aliasGroups f.imports)) then
      disambiguateLoopEnum E (t + 1) fuel f.disambiguatePass
    else f

/-- `disambiguateAliases` with explicit map-iteration orders (call 0 is the
early-exit check, calls 1, 2, ... are the loop-top checks). -/
def Fake.disambiguateAliasesEnum (E : Nat → List (List Import) → List (List Import))
    (f : Fake) : Fake :=
  let f1 := f.sortImports
  if hasDupEnum (E 0 (aliasGroups f1.imports)) then
    disambiguateLoopEnum E 1 (fuelBound f1.imports) f1
  else f1

/-- `Generate` with explicit map-iteration orders: the only place the
pipeline ranges over a Go map is `hasDuplicateAliases`. -/
def Fake.generateModelEnum (E : Nat → List (List Import) → List (List Import))
    (f : Fake) (sigs : List MethodSig) : Fake :=
  let f1 := sigs.foldl Fake.addImportsForSig f
  let f2 := f1.disambiguateAliasesEnum E
  let m := importsMapList f2.imports
  { f2 with methods := f2.methods ++ sigs.map (buildMethod m f2.name) }

/-! ### Proof-layer reformulation of one disambiguation pass

`rankStep l i x` is the update of the entry `x` sitting at position `i` of
the snapshot `l`, phrased through the entry's rank in its alias group (the
number of earlier entries with the same alias).  When the paths of `l` are
duplicate-free this coincides with `updateImport` (proved below), and it is
what all the termination bookkeeping is done on. -/

/-- The rank of position `i` in its alias group: how many entries before `i`
carry the same alias. -/
def rankOf (l : List Import) (i : Nat) (imp : Import) : Nat :=
  (groupFor (l.take i) imp.alias_).length

/-- Rank-based form of the per-entry update of one pass. -/
def rankStep (l : List Import) (i : Nat) (imp : Import) : Import :=
  if 0 < rankOf l i imp then appendSuffix imp (rankOf l i imp) else imp

/-- Rank-based form of a whole pass. -/
def rankMap (l : List Import) : List Import :=
  buildFrom (rankStep l) 0 l

/-- Total length of all aliases; the strictly increasing, bounded measure
that terminates the disambiguation loop. -/
def totalLen (l : List Import) : Nat :=
  (l.map (fun x => x.alias_.length)).sum

/-- The path column of an import list. -/
def pathsOf (l : List Import) : List String :=
  l.map (fun x => x.path)

/-! ### The disambiguation algorithm as worded by the spec (for claim C2)

These definitions follow §4.2 of the spec: sort by path (stable); while any
alias is shared by more than one distinct path, group the imports by their
current alias and, inside each such group (group order = current
sorted-by-path order), keep the first member unchanged and append one
suffix character to each subsequent member — the k-th subsequent member
(k = 1, 2, ...) receiving the codepoint `('a' + (k-1)) mod 256` (byte
arithmetic wrapping at 256, a lowercase letter for k ≤ 26);
re-group and repeat; whenever the re-aliased path is the interface's
own defining package, the remembered interface alias is updated to match.
They are compared with the source-derived `Fake.disambiguateAliases`. -/

/-- Modelled from the spec: the distinct paths currently sharing alias `a`. -/
def specGroupPaths (l : List Import) (a : String) : List String :=
  ((groupFor l a).map (fun x => x.path)).dedup

/-- Modelled from the spec: "any alias is shared by more than one distinct
path". -/
def specCollides (l : List Import) : Bool :=
  l.any (fun imp => 1 < (specGroupPaths l imp.alias_).length)

/-- Modelled from the spec as amended: the suffix character for the k-th
subsequent group member is the codepoint `('a' + (k-1)) mod 256` — byte
arithmetic wrapping at 256, a lowercase letter for k ≤ 26. -/
def specSuffix (k : Nat) : Char :=
  Char.ofNat ((97 + (k - 1)) % 256)

/-- Modelled from the spec: one group member's new alias.  The member at
position `i` of the list is the `pos`-th member of its alias group, where
`pos` counts the earlier entries with the same alias (group order = list
order = sorted-by-path order); members of groups covering more than one
distinct path, other than the first member, get one suffix character. -/
def specMember (l : List Import) (i : Nat) (imp : Import) : Import :=
  let pos := (groupFor (l.take i) imp.alias_).length
  if 1 < (specGroupPaths l imp.alias_).length ∧ 0 < pos then
    { imp with alias_ := imp.alias_.push (specSuffix pos) }
  else imp

/-- Modelled from the spec: one grouping-and-suffixing round. -/
def specPass (l : List Import) : List Import :=
  buildFrom (specMember l) 0 l

/-- Modelled from the spec: one round together with the interface-alias
update ("if the path that was just re-aliased is the interface's own
defining package, the locator's remembered alias is updated to match"). -/
def Fake.specPassFake (f : Fake) : Fake :=
  let snap := f.imports
  let newImports := specPass snap
  let newAlias :=
    (snap.zip newImports).foldl
      (fun acc p =>
        if p.1.path = f.interfacePackage ∧ p.2.alias_ ≠ p.1.alias_ then p.2.alias_ else acc)
      f.interfaceAlias
  { f with imports := newImports, interfaceAlias := newAlias }

/-- Modelled from the spec: "re-group and repeat until no alias collides"
(with the same fuel as the implementation model; the fuel is proved below
to exceed the number of rounds ever taken). -/
def specLoop : Nat → Fake → Fake
  | 0, f => f
  | fuel + 1, f => if specCollides f.imports then specLoop fuel f.specPassFake else f

/-- Modelled from the spec: the whole two-phase `Disambiguate()` pass. -/
def Fake.specDisambiguate (f : Fake) : Fake :=
  specLoop (fuelBound f.sortImports.imports) f.sortImports

/-! ### Concrete inputs used by witnesses and counterexamples -/

/-- Two imports sharing alias `x` with distinct paths. -/
def exFakeC1 : Fake :=
  { destinationPackage := "d", name := "n", interfaceAlias := "x", interfaceName := "I",
    interfacePackage := "b/x", imports := [⟨"x", "b/x"⟩, ⟨"x", "a/x"⟩], methods := [] }

/-- Twenty-eight imports sharing alias `x`: enough members in one alias
group that the 28th member's appended character, at offset 26 from `a`,
falls outside the lowercase alphabet. -/
def exFakeC2 : Fake :=
  { destinationPackage := "d", name := "n", interfaceAlias := "x", interfaceName := "I",
    interfacePackage := "p10",
    imports := (List.range 28).map (fun i => { alias_ := "x", path := "p" ++ toString (10 + i) }),
    methods := [] }

/-- A small fake with one colliding alias pair, for witnesses. -/
def exFakeC2w : Fake :=
  { destinationPackage := "d", name := "n", interfaceAlias := "q", interfaceName := "I",
    interfacePackage := "b/q", imports := [⟨"q", "b/q"⟩, ⟨"q", "a/q"⟩], methods := [] }

/-- A fake with an existing import, for the `AddImport` witness. -/
def exFakeC3 : Fake :=
  { destinationPackage := "d", name := "n", interfaceAlias := "pkg", interfaceName := "I",
    interfacePackage := "a/pkg", imports := [⟨"pkg", "a/pkg"⟩], methods := [] }

/-- A variadic single-parameter signature: `M(xs ...int)` (declared type
`[]int`). -/
def exSigC4 : MethodSig := ⟨"M", [.slice (.basic "int")], [], true⟩

/-- An empty fake used to run the generation pipeline in examples. -/
def exFakeC5 : Fake :=
  { destinationPackage := "fakes", name := "FakeT", interfaceAlias := "", interfaceName := "T",
    interfacePackage := "", imports := [], methods := [] }

/-- A signature whose only parameter has a shape the renderer does not
handle (a function type, `*types.Signature`). -/
def exSigC5 : MethodSig := ⟨"M", [.unknown "*types.Signature"], [], false⟩

/-- An imports map with one registered package, for the renderer witness. -/
def exMapC6 : List (String × Import) := importsMapList [⟨"mypkg", "a/b"⟩]

/-- An empty fake used for the emitted-text computation. -/
def exFakeC7 : Fake :=
  { destinationPackage := "fakes", name := "FakeX", interfaceAlias := "", interfaceName := "X",
    interfacePackage := "", imports := [], methods := [] }

/-- A method with one receive-only channel parameter: `M(c <-chan int)`. -/
def exSigC7 : MethodSig := ⟨"M", [.chan .recvOnly (.basic "int")], [], false⟩

/-- An interface signature for determinism witnesses. -/
def exSigC8 : MethodSig :=
  ⟨"Get", [.named (some ⟨"T", some ⟨"pkga", "x/pkga"⟩⟩)],
    [.named (some ⟨"U", some ⟨"pkga", "y/pkga"⟩⟩)], false⟩

/-- A fake to run the determinism witness on (two packages sharing the
short name `pkga`, so disambiguation really runs). -/
def exFakeC8 : Fake :=
  { destinationPackage := "fakes", name := "FakeG", interfaceAlias := "pkgi",
    interfaceName := "G", interfacePackage := "z/pkgi",
    imports := [⟨"sync", "sync"⟩, ⟨"pkgi", "z/pkgi"⟩], methods := [] }

/-- A loaded-package list for the `NewFake` witness. -/
def exPkgsC10 : List LoadedPackage :=
  [⟨"other", "example.com/other", false, []⟩,
   ⟨"mypkg", "example.com/mypkg", true, [("I", true)]⟩]

/-- The fake `NewFake` produces from `exPkgsC10`. -/
def exFakeC10 : Fake :=
  { destinationPackage := "fakes", name := "FakeI", interfaceAlias := "mypkg",
    interfaceName := "I", interfacePackage := "example.com/mypkg",
    imports := [⟨"sync", "sync"⟩, ⟨"mypkg", "example.com/mypkg"⟩], methods := [] }

/-! ### Supporting lemmas -/

example :
    (Fake.disambiguateAliases
      { destinationPackage := "d", name := "n", interfaceAlias := "x",
        interfaceName := "I", interfacePackage := "b/x",
        imports := [⟨"x", "b/x"⟩, ⟨"x", "a/x"⟩], methods := [] }).imports
    = [⟨"x", "a/x"⟩, ⟨"xa", "b/x"⟩] := by decide

example :
    (Fake.disambiguateAliases
      { destinationPackage := "d", name := "n", interfaceAlias := "x",
        interfaceName := "I", interfacePackage := "b/x",
        imports := [⟨"x", "b/x"⟩, ⟨"x", "a/x"⟩], methods := [] }).interfaceAlias
    = "xa" := by decide

example : unvendor "a/vendor/b/c" = "b/c" := by decide

example : unvendor "vendor/b/c" = "b/c" := by decide

example : unvendor "a/vendor/b/vendor/c" = "c" := by decide

example : unvendor (trimSpace " x ") = "x" := by decide

example :
    typeFor (.map (.basic "string") (.pointer (.named (some ⟨"T", some ⟨"pkg", "a/pkg"⟩⟩))))
      (importsMapList [⟨"pkg", "a/pkg"⟩]) = "map[string]*pkg.T" := by decide

example : typeFor (.chan .recvOnly (.basic "int")) [] = "<-chan int" := by decide

example : typeFor (.array 4 (.basic "byte")) [] = "[4]byte" := by decide

example :
    buildParams [] ⟨"M", [.slice (.basic "int")], [], true⟩
      = [⟨"arg1", "...int", true, false⟩] := by decide

example :
    buildParams [] ⟨"M", [.basic "int", .slice (.basic "byte")], [], false⟩
      = [⟨"arg1", "int", false, false⟩, ⟨"arg2", "[]byte", false, true⟩] := by decide

example :
    buildReturns [] ⟨"M", [], [.basic "int", .named (some ⟨"error", none⟩)], false⟩
      = [⟨"result1", "int"⟩, ⟨"result2", "error"⟩] := by decide

example : htmlEscape "<-chan int" = "&lt;-chan int" := by decide

example : htmlEscape "map[string]int" = "map[string]int" := by decide

example :
    NewFake [⟨"mypkg", "example.com/mypkg", true, [("I", true)]⟩]
      "I" "example.com/mypkg" "FakeI" "fakes"
    = .ok
      { destinationPackage := "fakes", name := "FakeI", interfaceAlias := "mypkg",
        interfaceName := "I", interfacePackage := "example.com/mypkg",
        imports := [⟨"sync", "sync"⟩, ⟨"mypkg", "example.com/mypkg"⟩], methods := [] } := rfl

theorem appendSuffix_path (imp : Import) (j : Nat) : (appendSuffix imp j).path = imp.path := rfl

theorem appendSuffix_length (imp : Import) (j : Nat) :
    (appendSuffix imp j).alias_.length = imp.alias_.length + 1 := by
  simp [appendSuffix]

theorem upGo_path : ∀ (g : List Import) (j : Nat) (cur : Import),
    (upGo g j cur).path = cur.path
  | [], _, _ => rfl
  | x :: rest, j, cur => by
    simp only [upGo]
    rw [upGo_path rest]
    split <;> rfl

theorem upGo_append (A B : List Import) : ∀ (j : Nat) (cur : Import),
    upGo (A ++ B) j cur = upGo B (j + A.length) (upGo A j cur) := by
  induction A with
  | nil => intro j cur; simp [upGo]
  | cons x rest ih =>
    intro j cur
    simp only [List.cons_append, upGo, List.length_cons, List.append_eq]
    rw [ih]
    congr 1
    omega

theorem upGo_nomatch : ∀ (A : List Import) (j : Nat) (cur : Import),
    (∀ x ∈ A, x.path ≠ cur.path) → upGo A j cur = cur
  | [], _, _, _ => rfl
  | x :: rest, j, cur, h => by
    simp only [upGo]
    rw [if_neg (by simp [h x (by simp)])]
    exact upGo_nomatch rest (j + 1) cur (fun y hy => h y (by simp [hy]))

theorem buildFrom_length (step : Nat → α → β) :
    ∀ (n : Nat) (l : List α), (buildFrom step n l).length = l.length
  | _, [] => rfl
  | n, _ :: ts => by simp [buildFrom, buildFrom_length step (n + 1) ts]

theorem buildFrom_getElem? (step : Nat → α → β) :
    ∀ (n : Nat) (l : List α) (i : Nat), (buildFrom step n l)[i]? = (l[i]?).map (step (n + i))
  | _, [], _ => by simp [buildFrom]
  | n, t :: ts, 0 => by simp [buildFrom]
  | n, t :: ts, i + 1 => by
    simp only [buildFrom, List.getElem?_cons_succ]
    rw [buildFrom_getElem? step (n + 1) ts i]
    have h : n + 1 + i = n + (i + 1) := by omega
    rw [h]

theorem groupFor_append (l₁ l₂ : List Import) (a : String) :
    groupFor (l₁ ++ l₂) a = groupFor l₁ a ++ groupFor l₂ a := by
  simp [groupFor]

theorem mem_groupFor {l : List Import} {a : String} {x : Import} :
    x ∈ groupFor l a ↔ x ∈ l ∧ x.alias_ = a := by
  simp [groupFor]

theorem getElem?_decomp {α : Type} {l : List α} {i : Nat} {x : α} (h : l[i]? = some x) :
    l = l.take i ++ x :: l.drop (i + 1) := by
  obtain ⟨hi, hv⟩ := List.getElem?_eq_some.mp h
  conv_lhs => rw [← List.take_append_drop i l]
  rw [List.drop_eq_getElem_cons hi, hv]

theorem group_split {l : List Import} (hnd : (pathsOf l).Nodup) {i : Nat} {x : Import}
    (hx : l[i]? = some x) :
    groupFor l x.alias_
        = groupFor (l.take i) x.alias_ ++ x :: groupFor (l.drop (i + 1)) x.alias_
      ∧ (∀ y ∈ groupFor (l.take i) x.alias_, y.path ≠ x.path)
      ∧ (∀ y ∈ groupFor (l.drop (i + 1)) x.alias_, y.path ≠ x.path) := by
  have hdec := getElem?_decomp hx
  have hpaths : (pathsOf (l.take i) ++ x.path :: pathsOf (l.drop (i + 1))).Nodup := by
    have h := hnd
    rw [hdec] at h
    simpa [pathsOf] using h
  have hmid := List.nodup_middle.mp hpaths
  have hnotin := (List.nodup_cons.mp hmid).1
  have hxT : x.path ∉ pathsOf (l.take i) := fun h => hnotin (List.mem_append_left _ h)
  have hxD : x.path ∉ pathsOf (l.drop (i + 1)) := fun h => hnotin (List.mem_append_right _ h)
  refine ⟨?_, ?_, ?_⟩
  · conv_lhs => rw [hdec]
    rw [groupFor_append]
    simp [groupFor, List.filter_cons]
  · intro y hy heq
    exact hxT (heq ▸ List.mem_map_of_mem _ (mem_groupFor.mp hy).1)
  · intro y hy heq
    exact hxD (heq ▸ List.mem_map_of_mem _ (mem_groupFor.mp hy).1)

theorem updateImport_eq_rankStep {l : List Import} (hnd : (pathsOf l).Nodup)
    {i : Nat} {x : Import} (hx : l[i]? = some x) :
    updateImport l x = rankStep l i x := by
  obtain ⟨hg, hTne, hDne⟩ := group_split hnd hx
  by_cases hone : (groupFor l x.alias_).length = 1
  · have hk0 : (groupFor (l.take i) x.alias_).length = 0 := by
      rw [hg] at hone
      simp only [List.length_append, List.length_cons] at hone
      omega
    simp [updateImport, hone, rankStep, rankOf, hk0]
  · have hmain : upGo (groupFor l x.alias_) 0 x
        = if 0 < (groupFor (l.take i) x.alias_).length
          then appendSuffix x (groupFor (l.take i) x.alias_).length else x := by
      rw [hg, upGo_append, upGo_nomatch _ _ _ hTne]
      simp only [upGo, Nat.zero_add]
      by_cases hk : 0 < (groupFor (l.take i) x.alias_).length
      · rw [if_pos ⟨trivial, hk⟩, if_pos hk]
        exact upGo_nomatch _ _ _ (fun y hy => by rw [appendSuffix_path]; exact hDne y hy)
      · rw [if_neg (by simp [hk]), if_neg hk]
        exact upGo_nomatch _ _ _ hDne
    simp [updateImport, hone, rankStep, rankOf, hmain]

theorem map_updateImport_eq_rankMap {l : List Import} (hnd : (pathsOf l).Nodup) :
    l.map (updateImport l) = rankMap l := by
  apply List.ext_getElem?
  intro i
  rw [List.getElem?_map, rankMap, buildFrom_getElem?]
  cases hx : l[i]? with
  | none => rfl
  | some x => simp [updateImport_eq_rankStep hnd hx]

theorem group_paths_nodup {l : List Import} (hnd : (pathsOf l).Nodup) (a : String) :
    ((groupFor l a).map (fun x => x.path)).Nodup :=
  ((List.filter_sublist l).map _).nodup hnd

theorem specGroupPaths_length {l : List Import} (hnd : (pathsOf l).Nodup) (a : String) :
    (specGroupPaths l a).length = (groupFor l a).length := by
  rw [specGroupPaths, List.Nodup.dedup (group_paths_nodup hnd a), List.length_map]

theorem specMember_eq_rankStep {l : List Import} (hnd : (pathsOf l).Nodup)
    {i : Nat} {x : Import} (hx : l[i]? = some x) :
    specMember l i x = rankStep l i x := by
  by_cases hk : 0 < (groupFor (l.take i) x.alias_).length
  · obtain ⟨hg, -, -⟩ := group_split hnd hx
    have hbig : 1 < (specGroupPaths l x.alias_).length := by
      rw [specGroupPaths_length hnd, hg]
      simp only [List.length_append, List.length_cons]
      omega
    simp [specMember, rankStep, rankOf, hk, hbig, appendSuffix, specSuffix, suffixChar]
  · simp [specMember, rankStep, rankOf, hk]

theorem specPass_eq_rankMap {l : List Import} (hnd : (pathsOf l).Nodup) :
    specPass l = rankMap l := by
  apply List.ext_getElem?
  intro i
  rw [specPass, rankMap, buildFrom_getElem?, buildFrom_getElem?]
  cases hx : l[i]? with
  | none => rfl
  | some x => simp [specMember_eq_rankStep hnd hx]

theorem rankStep_path (l : List Import) (i : Nat) (x : Import) :
    (rankStep l i x).path = x.path := by
  rw [rankStep]
  split <;> rfl

theorem rankStep_len_ge (l : List Import) (i : Nat) (x : Import) :
    x.alias_.length ≤ (rankStep l i x).alias_.length := by
  rw [rankStep]
  split
  · rw [appendSuffix_length]; omega
  · exact Nat.le_refl _

theorem rankStep_len_succ {l : List Import} {i : Nat} {x : Import}
    (h : 0 < rankOf l i x) :
    (rankStep l i x).alias_.length = x.alias_.length + 1 := by
  rw [rankStep, if_pos h, appendSuffix_length]

theorem rankMap_length (l : List Import) : (rankMap l).length = l.length :=
  buildFrom_length _ 0 l

theorem rankMap_pathsOf (l : List Import) : pathsOf (rankMap l) = pathsOf l := by
  apply List.ext_getElem?
  intro i
  rw [pathsOf, pathsOf, List.getElem?_map, List.getElem?_map, rankMap, buildFrom_getElem?]
  cases hx : l[i]? <;> simp [rankStep_path]

theorem rankOf_pos_exists {l : List Import} {i : Nat} {x : Import} (h : 0 < rankOf l i x) :
    ∃ j z, j < i ∧ l[j]? = some z ∧ z.alias_ = x.alias_ := by
  have hne : ∃ z, z ∈ groupFor (l.take i) x.alias_ := by
    cases hg : groupFor (l.take i) x.alias_ with
    | nil => rw [rankOf, hg] at h; simp at h
    | cons z zs => exact ⟨z, by simp [hg]⟩
  obtain ⟨z, hz⟩ := hne
  obtain ⟨hzm, hza⟩ := mem_groupFor.mp hz
  obtain ⟨j, hj⟩ := List.mem_iff_getElem?.mp hzm
  have hji : j < i := by
    obtain ⟨hlt, -⟩ := List.getElem?_eq_some.mp hj
    simp only [List.length_take] at hlt
    omega
  refine ⟨j, z, hji, ?_, hza⟩
  rw [← List.getElem?_take_of_lt hji]
  exact hj

theorem rankMap_bound {l : List Import} {L : Nat}
    (hb : ∀ i x, l[i]? = some x → x.alias_.length ≤ L + i) :
    ∀ i y, (rankMap l)[i]? = some y → y.alias_.length ≤ L + i := by
  intro i y hy
  rw [rankMap, buildFrom_getElem?] at hy
  cases hx : l[i]? with
  | none => rw [hx] at hy; simp at hy
  | some x =>
    rw [hx] at hy
    simp only [Nat.zero_add, Option.map_some'] at hy
    have hy' : rankStep l i x = y := by injection hy
    by_cases hk : 0 < rankOf l i x
    · obtain ⟨j, z, hji, hjz, hza⟩ := rankOf_pos_exists hk
      have h1 := hb j z hjz
      have h2 : x.alias_.length = z.alias_.length := by rw [← hza]
      rw [← hy', rankStep_len_succ hk]
      omega
    · rw [← hy', rankStep, if_neg hk]
      exact hb i x hx

theorem totalLen_cons (y : Import) (ys : List Import) :
    totalLen (y :: ys) = y.alias_.length + totalLen ys := by
  simp [totalLen]

theorem totalLen_buildFrom_ge (l : List Import) :
    ∀ (m : List Import) (n : Nat), totalLen m ≤ totalLen (buildFrom (rankStep l) n m)
  | [], _ => Nat.le_refl _
  | y :: ys, n => by
    rw [buildFrom, totalLen_cons, totalLen_cons]
    have h1 := rankStep_len_ge l n y
    have h2 := totalLen_buildFrom_ge l ys (n + 1)
    omega

theorem totalLen_buildFrom_lt (l : List Import) :
    ∀ (m : List Import) (n j : Nat) (x : Import), m[j]? = some x → 0 < rankOf l (n + j) x →
      totalLen m < totalLen (buildFrom (rankStep l) n m)
  | [], _, j, x, hj, _ => by simp at hj
  | y :: ys, n, 0, x, hj, hk => by
    have hxy : y = x := by simpa using hj
    subst hxy
    rw [buildFrom, totalLen_cons, totalLen_cons]
    have h1 : (rankStep l n y).alias_.length = y.alias_.length + 1 :=
      rankStep_len_succ (by simpa using hk)
    have h2 := totalLen_buildFrom_ge l ys (n + 1)
    omega
  | y :: ys, n, j + 1, x, hj, hk => by
    rw [buildFrom, totalLen_cons, totalLen_cons]
    have h1 := rankStep_len_ge l n y
    have h2 : totalLen ys < totalLen (buildFrom (rankStep l) (n + 1) ys) := by
      refine totalLen_buildFrom_lt l ys (n + 1) j x (by simpa using hj) ?_
      have h : n + 1 + j = n + (j + 1) := by omega
      rw [h]
      exact hk
    omega

theorem two_mem_filter_pos {p : Import → Bool} : ∀ (l : List Import),
    2 ≤ (l.filter p).length →
    ∃ j x, l[j]? = some x ∧ p x = true ∧ 0 < ((l.take j).filter p).length := by
  intro l
  induction l with
  | nil => intro h; simp at h
  | cons y ys ih =>
    intro h
    by_cases hp : p y = true
    · have hlen : 1 ≤ (ys.filter p).length := by
        rw [List.filter_cons, if_pos hp] at h
        simp at h
        omega
      have hex : ∃ x, x ∈ ys.filter p := by
        cases hg : ys.filter p with
        | nil => rw [hg] at hlen; simp at hlen
        | cons z zs => exact ⟨z, by simp [hg]⟩
      obtain ⟨x, hx⟩ := hex
      obtain ⟨hxm, hpx⟩ := List.mem_filter.mp hx
      obtain ⟨j, hj⟩ := List.mem_iff_getElem?.mp hxm
      refine ⟨j + 1, x, by simpa using hj, hpx, ?_⟩
      rw [List.take_succ_cons, List.filter_cons, if_pos hp]
      simp
    · have h' : 2 ≤ (ys.filter p).length := by
        rw [List.filter_cons, if_neg hp] at h
        exact h
      obtain ⟨j, x, hj, hpx, hpos⟩ := ih h'
      refine ⟨j + 1, x, by simpa using hj, hpx, ?_⟩
      rw [List.take_succ_cons, List.filter_cons, if_neg hp]
      exact hpos

theorem hasDup_exists_rank_pos {l : List Import} (h : hasDuplicateAliases l = true) :
    ∃ j x, l[j]? = some x ∧ 0 < rankOf l j x := by
  rw [hasDuplicateAliases, List.any_eq_true] at h
  obtain ⟨imp, himp, hlen⟩ := h
  have h2 : 2 ≤ (l.filter (fun g => g.alias_ = imp.alias_)).length := by
    have := of_decide_eq_true hlen
    rw [groupFor] at this
    omega
  obtain ⟨j, x, hj, hpx, hpos⟩ := two_mem_filter_pos l h2
  refine ⟨j, x, hj, ?_⟩
  have hxa : x.alias_ = imp.alias_ := of_decide_eq_true hpx
  rw [rankOf, groupFor]
  simp only [hxa]
  exact hpos

theorem disambiguatePass_imports (f : Fake) :
    f.disambiguatePass.imports = f.imports.map (updateImport f.imports) := rfl

theorem disambiguatePass_methods (f : Fake) : f.disambiguatePass.methods = f.methods := rfl

theorem totalLen_le_of_bound : ∀ (m : List Import) (L n : Nat),
    (∀ i x, m[i]? = some x → x.alias_.length ≤ L + (n + i)) →
    totalLen m ≤ m.length * (L + n + m.length)
  | [], _, _, _ => by simp [totalLen]
  | y :: ys, L, n, hb => by
    have h0 : y.alias_.length ≤ L + n := by simpa using hb 0 y (by simp)
    have ihy := totalLen_le_of_bound ys L (n + 1)
      (fun i x hx => by
        have := hb (i + 1) x (by simpa using hx)
        omega)
    rw [totalLen_cons, List.length_cons]
    nlinarith [ihy, h0]

theorem length_le_maxAliasLen : ∀ (l : List Import) (x : Import), x ∈ l →
    x.alias_.length ≤ maxAliasLen l
  | y :: ys, x, hx => by
    rcases List.mem_cons.mp hx with h | h
    · subst h
      exact Nat.le_max_left _ _
    · exact Nat.le_trans (length_le_maxAliasLen ys x h) (Nat.le_max_right _ _)

theorem loop_clears (L : Nat) : ∀ (fuel : Nat) (f : Fake),
    (pathsOf f.imports).Nodup →
    (∀ i x, f.imports[i]? = some x → x.alias_.length ≤ L + i) →
    f.imports.length * (L + f.imports.length) + 1 ≤ fuel + totalLen f.imports →
    hasDuplicateAliases (disambiguateLoop fuel f).imports = false := by
  intro fuel
  induction fuel with
  | zero =>
    intro f hnd hb hf
    exfalso
    have hub := totalLen_le_of_bound f.imports L 0
      (fun i x hx => by simpa using hb i x hx)
    rw [Nat.add_zero] at hub
    omega
  | succ fuel ih =>
    intro f hnd hb hf
    rw [disambiguateLoop]
    by_cases hdup : hasDuplicateAliases f.imports
    · rw [if_pos hdup]
      have himp : f.disambiguatePass.imports = rankMap f.imports := by
        rw [disambiguatePass_imports, map_updateImport_eq_rankMap hnd]
      have hstrict : totalLen f.imports < totalLen (rankMap f.imports) := by
        obtain ⟨j, x, hj, hpos⟩ := hasDup_exists_rank_pos hdup
        refine totalLen_buildFrom_lt f.imports f.imports 0 j x hj ?_
        rw [Nat.zero_add]
        exact hpos
      refine ih f.disambiguatePass ?_ ?_ ?_
      · rw [himp, rankMap_pathsOf]
        exact hnd
      · rw [himp]
        exact rankMap_bound hb
      · rw [himp, rankMap_length]
        omega
    · rw [if_neg hdup]
      exact Bool.not_eq_true _ ▸ Bool.of_not_eq_true hdup

theorem loop_of_noDup {f : Fake} (h : hasDuplicateAliases f.imports = false) :
    ∀ fuel, disambiguateLoop fuel f = f
  | 0 => rfl
  | fuel + 1 => by rw [disambiguateLoop, h]; simp

theorem loop_add (a : Nat) : ∀ (b : Nat) (f : Fake),
    disambiguateLoop (a + b) f = disambiguateLoop b (disambiguateLoop a f) := by
  induction a with
  | zero => intro b f; rw [Nat.zero_add]; rfl
  | succ a ih =>
    intro b f
    by_cases hdup : hasDuplicateAliases f.imports
    · have h1 : a + 1 + b = (a + b) + 1 := by omega
      rw [h1, disambiguateLoop, if_pos hdup, ih, disambiguateLoop, if_pos hdup]
    · have hf : hasDuplicateAliases f.imports = false := by
        simpa using hdup
      rw [loop_of_noDup hf, loop_of_noDup hf, loop_of_noDup hf]

theorem nodup_of_positions : ∀ (m : List String),
    (∀ (i j : Nat) (x y : String), i < j → m[i]? = some x → m[j]? = some y → x ≠ y) →
    m.Nodup := by
  intro m
  induction m with
  | nil => intro _; exact List.nodup_nil
  | cons a m' ih =>
    intro h
    rw [List.nodup_cons]
    constructor
    · intro hmem
      obtain ⟨j, hj⟩ := List.mem_iff_getElem?.mp hmem
      exact h 0 (j + 1) a a (by omega) (by simp) (by simpa using hj) rfl
    · exact ih
        (fun i j x y hij hi hj => h (i + 1) (j + 1) x y (by omega) (by simpa using hi)
          (by simpa using hj))

theorem group_two_of_positions {l : List Import} {i j : Nat} {u v : Import}
    (hij : i < j) (hi : l[i]? = some u) (hj : l[j]? = some v)
    (ha : u.alias_ = v.alias_) : 2 ≤ (groupFor l v.alias_).length := by
  have hdec := getElem?_decomp hj
  have hsplit : groupFor l v.alias_
      = groupFor (l.take j) v.alias_ ++ v :: groupFor (l.drop (j + 1)) v.alias_ := by
    conv_lhs => rw [hdec]
    rw [groupFor_append]
    simp [groupFor, List.filter_cons]
  have humem : u ∈ groupFor (l.take j) v.alias_ := by
    refine mem_groupFor.mpr ⟨?_, ha⟩
    refine List.mem_iff_getElem?.mpr ⟨i, ?_⟩
    rw [List.getElem?_take_of_lt hij]
    exact hi
  have hpos : 0 < (groupFor (l.take j) v.alias_).length := List.length_pos.mpr
    (fun he => by rw [he] at humem; simp at humem)
  rw [hsplit]
  simp only [List.length_append, List.length_cons]
  omega

theorem alias_nodup_of_noDup {l : List Import} (h : hasDuplicateAliases l = false) :
    (l.map (fun x => x.alias_)).Nodup := by
  have hb : ∀ imp ∈ l, ¬ 1 < (groupFor l imp.alias_).length := by
    intro imp hmem hgt
    have hx : hasDuplicateAliases l = true := by
      rw [hasDuplicateAliases, List.any_eq_true]
      exact ⟨imp, hmem, decide_eq_true hgt⟩
    rw [h] at hx
    exact Bool.false_ne_true hx
  apply nodup_of_positions
  intro i j x y hij hi hj hxy
  subst hxy
  rw [List.getElem?_map] at hi hj
  cases hu : l[i]? with
  | none => rw [hu] at hi; simp at hi
  | some u =>
    cases hv : l[j]? with
    | none => rw [hv] at hj; simp at hj
    | some v =>
      rw [hu] at hi
      rw [hv] at hj
      have hua : u.alias_ = x := by simpa using hi
      have hva : v.alias_ = x := by simpa using hj
      have htwo := group_two_of_positions hij hu hv (hua.trans hva.symm)
      exact hb v (List.mem_iff_getElem?.mpr ⟨j, hv⟩) (by omega)

theorem sortImports_perm (f : Fake) : f.sortImports.imports.Perm f.imports :=
  List.perm_insertionSort _ _

theorem loop_pathsOf : ∀ (fuel : Nat) (f : Fake), (pathsOf f.imports).Nodup →
    pathsOf ((disambiguateLoop fuel f).imports) = pathsOf f.imports
  | 0, _, _ => rfl
  | fuel + 1, f, hnd => by
    rw [disambiguateLoop]
    by_cases hdup : hasDuplicateAliases f.imports
    · rw [if_pos hdup]
      have himp : f.disambiguatePass.imports = rankMap f.imports := by
        rw [disambiguatePass_imports, map_updateImport_eq_rankMap hnd]
      have h1 : pathsOf f.disambiguatePass.imports = pathsOf f.imports := by
        rw [himp, rankMap_pathsOf]
      rw [loop_pathsOf fuel f.disambiguatePass (h1 ▸ hnd), h1]
    · rw [if_neg hdup]

theorem disambiguateAliases_noDup {f : Fake} (hnd : (pathsOf f.imports).Nodup) :
    hasDuplicateAliases f.disambiguateAliases.imports = false := by
  have hnd1 : (pathsOf f.sortImports.imports).Nodup :=
    (((sortImports_perm f).map _).nodup_iff).mpr (by simpa [pathsOf] using hnd)
  rw [Fake.disambiguateAliases]
  by_cases hdup : hasDuplicateAliases f.sortImports.imports
  · rw [if_pos hdup]
    refine loop_clears (maxAliasLen f.sortImports.imports) _ _ hnd1 ?_ ?_
    · intro i x hx
      have hmem := List.mem_iff_getElem?.mpr ⟨i, hx⟩
      have := length_le_maxAliasLen _ x hmem
      omega
    · rw [fuelBound]
      omega
  · rw [if_neg hdup]
    simpa using hdup

theorem loop_noDup_result {f : Fake} (hnd : (pathsOf f.imports).Nodup) {fuel : Nat}
    (hfuel : fuelBound f.imports ≤ fuel) :
    hasDuplicateAliases (disambiguateLoop fuel f).imports = false := by
  refine loop_clears (maxAliasLen f.imports) fuel f hnd ?_ ?_
  · intro i x hx
    have hmem := List.mem_iff_getElem?.mpr ⟨i, hx⟩
    have := length_le_maxAliasLen _ x hmem
    omega
  · rw [fuelBound] at hfuel
    omega

theorem specCollides_eq {l : List Import} (hnd : (pathsOf l).Nodup) :
    specCollides l = hasDuplicateAliases l := by
  rw [specCollides, hasDuplicateAliases]
  congr 1
  funext imp
  rw [specGroupPaths_length hnd]

theorem specPassFake_eq {f : Fake} (hnd : (pathsOf f.imports).Nodup) :
    f.specPassFake = f.disambiguatePass := by
  have h : specPass f.imports = f.imports.map (updateImport f.imports) :=
    (specPass_eq_rankMap hnd).trans (map_updateImport_eq_rankMap hnd).symm
  simp only [Fake.specPassFake, Fake.disambiguatePass]
  rw [h]

theorem specLoop_eq : ∀ (fuel : Nat) (f : Fake), (pathsOf f.imports).Nodup →
    specLoop fuel f = disambiguateLoop fuel f
  | 0, _, _ => rfl
  | fuel + 1, f, hnd => by
    rw [specLoop, disambiguateLoop, specCollides_eq hnd]
    by_cases hdup : hasDuplicateAliases f.imports
    · rw [if_pos hdup, if_pos hdup, specPassFake_eq hnd]
      refine specLoop_eq fuel _ ?_
      have himp : f.disambiguatePass.imports = rankMap f.imports := by
        rw [disambiguatePass_imports, map_updateImport_eq_rankMap hnd]
      rw [himp, rankMap_pathsOf]
      exact hnd
    · rw [if_neg hdup, if_neg hdup]

theorem disambiguateAliases_pathsOf {f : Fake} (hnd : (pathsOf f.imports).Nodup) :
    pathsOf f.disambiguateAliases.imports = pathsOf f.sortImports.imports := by
  have hnd1 : (pathsOf f.sortImports.imports).Nodup :=
    (((sortImports_perm f).map _).nodup_iff).mpr (by simpa [pathsOf] using hnd)
  rw [Fake.disambiguateAliases]
  by_cases hdup : hasDuplicateAliases f.sortImports.imports
  · rw [if_pos hdup]
    exact loop_pathsOf _ _ hnd1
  · rw [if_neg hdup]

/-! ### Claims -/

/-- C1: for every Fake whose import paths are distinct (the invariant
`AddImport` maintains), after `disambiguateAliases` no two imports share an
alias, and the multiset of paths is exactly the original one (entries are
reordered by the sort and re-aliased, but no path changes). -/
theorem C1_disambiguate_unique_aliases_paths_preserved (f : Fake)
    (h : (pathsOf f.imports).Nodup) :
    (f.disambiguateAliases.imports.map (fun x => x.alias_)).Nodup ∧
    (pathsOf f.disambiguateAliases.imports).Perm (pathsOf f.imports) := by
  constructor
  · exact alias_nodup_of_noDup (disambiguateAliases_noDup h)
  · rw [disambiguateAliases_pathsOf h]
    exact (sortImports_perm f).map _

theorem C1_witness :
    (exFakeC1.disambiguateAliases.imports.map (fun x => x.alias_)).Nodup ∧
    (pathsOf exFakeC1.disambiguateAliases.imports).Perm (pathsOf exFakeC1.imports) :=
  C1_disambiguate_unique_aliases_paths_preserved exFakeC1 (by decide)

/-- C2 (counterexample): with 28 imports sharing the alias `x`, the 28th
group member receives the character at offset 26 from `a`, namely `{`
(code 123), which is not a lowercase letter — refuting "appends a single
lowercase letter ('a' for the second member, 'b' for the third, ...)". -/
theorem C2_counterexample :
    (exFakeC2.disambiguateAliases.imports.getLastD default).alias_
        = "x".push (Char.ofNat 123) ∧
    (Char.ofNat 123).isLower = false := by
  constructor
  · decide
  · decide

/-- C2 (amended): `disambiguateAliases` coincides with the spec's two-phase
algorithm — stable-sort by path, then repeatedly group by current alias and
append a suffix character to each subsequent member of a multi-path group
(the k-th subsequent member receiving the codepoint `('a' + (k-1)) mod 256`
— the byte sum wraps at 256 — a lowercase letter for k ≤ 26), updating the
interface alias
whenever the re-aliased path is the interface's defining package — for every
fake whose import paths are distinct. -/
theorem C2_amended_follows_spec_algorithm (f : Fake)
    (h : (pathsOf f.imports).Nodup) :
    f.disambiguateAliases = f.specDisambiguate := by
  have hnd1 : (pathsOf f.sortImports.imports).Nodup :=
    (((sortImports_perm f).map _).nodup_iff).mpr (by simpa [pathsOf] using h)
  rw [Fake.specDisambiguate, specLoop_eq _ _ hnd1, Fake.disambiguateAliases]
  by_cases hdup : hasDuplicateAliases f.sortImports.imports
  · rw [if_pos hdup]
  · rw [if_neg hdup]
    exact (loop_of_noDup (by simpa using hdup) _).symm

theorem C2_witness : exFakeC2w.disambiguateAliases = exFakeC2w.specDisambiguate :=
  C2_amended_follows_spec_algorithm exFakeC2w (by decide)

/-- C9: on every fake whose import paths are distinct, the
re-group-and-suffix loop of `disambiguateAliases` reaches, within the
modelled fuel, a fixed point at which no alias collides: with `N` the fuel
bound, the state after `N` rounds has no duplicate aliases and more fuel
never changes the result — the Go `for` loop terminates.  There is no
failure path: the transformation is a total function into `Fake` with no
error outcome. -/
theorem C9_disambiguation_terminates (f : Fake)
    (h : (pathsOf f.imports).Nodup) :
    ∃ N, hasDuplicateAliases ((disambiguateLoop N f.sortImports).imports) = false ∧
      ∀ m, N ≤ m → disambiguateLoop m f.sortImports = disambiguateLoop N f.sortImports := by
  have hnd1 : (pathsOf f.sortImports.imports).Nodup :=
    (((sortImports_perm f).map _).nodup_iff).mpr (by simpa [pathsOf] using h)
  refine ⟨fuelBound f.sortImports.imports, loop_noDup_result hnd1 (Nat.le_refl _), ?_⟩
  intro m hm
  obtain ⟨k, rfl⟩ := Nat.exists_eq_add_of_le hm
  rw [loop_add]
  exact loop_of_noDup (loop_noDup_result hnd1 (Nat.le_refl _)) k

theorem C9_witness :
    ∃ N, hasDuplicateAliases ((disambiguateLoop N exFakeC1.sortImports).imports) = false ∧
      ∀ m, N ≤ m →
        disambiguateLoop m exFakeC1.sortImports = disambiguateLoop N exFakeC1.sortImports :=
  C9_disambiguation_terminates exFakeC1 (by decide)

/-- C3: `AddImport` stores the devendorized (and whitespace-trimmed) path
and is idempotent by path: (1) if an entry with the devendorized path
already exists, the call returns the fake unchanged together with that
entry; (2) a genuinely new path is appended at the end of the list;
(3) adding a path whose devendorized form equals that of an earlier add —
under any alias — is a complete no-op, returning the same fake and the same
entry, so two adds of one devendorized path yield (4) exactly one matching
entry when none existed before. -/
theorem C3_AddImport_devendorized_idempotent (f : Fake) (al p : String) :
    (∀ e, f.imports.find? (fun imp => imp.path = unvendor (trimSpace p)) = some e →
      Fake.AddImport f al p = (f, e)) ∧
    (f.imports.find? (fun imp => imp.path = unvendor (trimSpace p)) = none →
      (Fake.AddImport f al p).1.imports
        = f.imports ++ [{ alias_ := trimSpace al, path := unvendor (trimSpace p) }]) ∧
    (∀ al' p', unvendor (trimSpace p') = unvendor (trimSpace p) →
      Fake.AddImport (Fake.AddImport f al p).1 al' p' = Fake.AddImport f al p) ∧
    (f.imports.find? (fun imp => imp.path = unvendor (trimSpace p)) = none →
      ((Fake.AddImport f al p).1.imports.filter
          (fun imp => imp.path = unvendor (trimSpace p))).length = 1) := by
  refine ⟨?_, ?_, ?_, ?_⟩
  · intro e he
    simp only [Fake.AddImport, he]
  · intro hn
    simp only [Fake.AddImport, hn]
  · intro al' p' hq
    cases hf : f.imports.find? (fun imp => imp.path = unvendor (trimSpace p)) with
    | some e =>
      have h1 : Fake.AddImport f al p = (f, e) := by simp only [Fake.AddImport, hf]
      rw [h1]
      simp only [Fake.AddImport, hq, hf]
    | none =>
      have h1 : (Fake.AddImport f al p).1.imports
          = f.imports ++ [{ alias_ := trimSpace al, path := unvendor (trimSpace p) }] := by
        simp only [Fake.AddImport, hf]
      have h2 : Fake.AddImport f al p
          = ({ f with imports := f.imports
                ++ [{ alias_ := trimSpace al, path := unvendor (trimSpace p) }] },
             { alias_ := trimSpace al, path := unvendor (trimSpace p) }) := by
        simp only [Fake.AddImport, hf]
      rw [h2]
      simp only [Fake.AddImport, hq, List.find?_append, hf]
      simp
  · intro hn
    have h1 : (Fake.AddImport f al p).1.imports
        = f.imports ++ [{ alias_ := trimSpace al, path := unvendor (trimSpace p) }] := by
      simp only [Fake.AddImport, hn]
    rw [h1, List.filter_append]
    have h2 : f.imports.filter (fun imp => imp.path = unvendor (trimSpace p)) = [] := by
      rw [List.filter_eq_nil_iff]
      intro a ha
      have := List.find?_eq_none.mp hn a ha
      simpa using this
    rw [h2]
    simp

theorem C3_witness :
    Fake.AddImport exFakeC3 "other" "x/vendor/a/pkg" = (exFakeC3, ⟨"pkg", "a/pkg"⟩) ∧
    Fake.AddImport (Fake.AddImport exFakeC3 "q" "b/q").1 "r" " b/q " =
      Fake.AddImport exFakeC3 "q" "b/q" :=
  ⟨(C3_AddImport_devendorized_idempotent exFakeC3 "other" "x/vendor/a/pkg").1
      ⟨"pkg", "a/pkg"⟩ (by decide),
   (C3_AddImport_devendorized_idempotent exFakeC3 "q" "b/q").2.2.1 "r" " b/q " (by decide)⟩

theorem strHasPre_dots (s : String) : strHasPre ("..." ++ s) "[]" = false := by
  rw [strHasPre, String.data_append]
  simp

theorem buildParam_fields (m : List (String × Import)) (sig : MethodSig) (i : Nat)
    (t : GoType) :
    (buildParam m sig i t).name = "arg" ++ toString (i + 1) ∧
    (buildParam m sig i t).isVariadic = (decide (i = sig.params.length - 1) && sig.variadic) ∧
    (buildParam m sig i t).isSlice = strHasPre (buildParam m sig i t).type "[]" ∧
    ((buildParam m sig i t).isVariadic = true → (buildParam m sig i t).isSlice = false) := by
  refine ⟨rfl, rfl, rfl, ?_⟩
  intro hv
  rw [buildParam] at hv ⊢
  simp only at hv
  simp only [hv, if_pos]
  exact strHasPre_dots _

/-- C4 (counterexample): for the variadic method `M(xs ...int)` the built
last parameter has `IsVariadic` true but `IsSlice` false — the stored type
text is `...int` (the `[]` → `...` rewrite happens before `IsSlice` is
computed), refuting "the last parameter of a variadic method has IsSlice
true" even though the renderer's output `[]int` does begin with `[]`. -/
theorem C4_counterexample :
    ((buildParams [] exSigC4).getLastD default).isVariadic = true ∧
    ((buildParams [] exSigC4).getLastD default).isSlice = false ∧
    typeFor (GoType.slice (.basic "int")) [] = "[]int" ∧
    ((buildParams [] exSigC4).getLastD default).type = "...int" := by
  refine ⟨by decide, by decide, by decide, by decide⟩

/-- C4 (amended): parameters and returns carry synthetic 1-indexed
positional names `argN` / `resultN` in declaration order (the model carries
no source names at all — `Generate` never reads them); `IsVariadic` holds
exactly for the last parameter of a variadic method; `IsSlice` holds exactly
when the *stored* type text (after the variadic `[]` → `...` rewrite)
begins with `[]` — so the last parameter of a variadic method has `IsSlice`
false, its stored text beginning with `...`. -/
theorem C4_amended_param_return_fields (m : List (String × Import)) (sig : MethodSig) :
    (∀ (i : Nat) (p : Param), (buildParams m sig)[i]? = some p →
      p.name = "arg" ++ toString (i + 1) ∧
      p.isVariadic = (decide (i = sig.params.length - 1) && sig.variadic) ∧
      p.isSlice = strHasPre p.type "[]" ∧
      (p.isVariadic = true → p.isSlice = false)) ∧
    (∀ (i : Nat) (r : Return), (buildReturns m sig)[i]? = some r →
      r.name = "result" ++ toString (i + 1)) := by
  constructor
  · intro i p hp
    rw [buildParams, buildFrom_getElem?] at hp
    cases ht : sig.params[i]? with
    | none => rw [ht] at hp; simp at hp
    | some t =>
      rw [ht] at hp
      simp only [Nat.zero_add, Option.map_some'] at hp
      have hp' : buildParam m sig i t = p := by injection hp
      rw [← hp']
      exact buildParam_fields m sig i t
  · intro i r hr
    rw [buildReturns, buildFrom_getElem?] at hr
    cases ht : sig.results[i]? with
    | none => rw [ht] at hr; simp at hr
    | some t =>
      rw [ht] at hr
      simp only [Nat.zero_add, Option.map_some'] at hr
      have hr' : ({ name := "result" ++ toString (i + 1), type := typeFor t m } : Return)
          = r := by injection hr
      rw [← hr']

theorem C4_witness :
    (((buildParams [] exSigC4)[0]?).getD default).name = "arg1" ∧
    (((buildParams [] exSigC4)[0]?).getD default).isVariadic = true :=
  have h := (C4_amended_param_return_fields [] exSigC4).1 0
    (((buildParams [] exSigC4)[0]?).getD default) (by decide)
  ⟨h.1, by rw [h.2.1]; decide⟩

theorem AddImport_methods (f : Fake) (al p : String) :
    (Fake.AddImport f al p).1.methods = f.methods := by
  rw [Fake.AddImport]
  cases f.imports.find? (fun imp => imp.path = unvendor (trimSpace p)) <;> rfl

theorem addImportsFor_methods : ∀ (t : GoType) (f : Fake),
    (f.addImportsFor t).methods = f.methods
  | .basic _, _ => rfl
  | .pointer t, f => addImportsFor_methods t f
  | .map k v, f => by
    rw [Fake.addImportsFor, addImportsFor_methods v, addImportsFor_methods k]
  | .chan _ t, f => addImportsFor_methods t f
  | .named none, _ => rfl
  | .named (some o), f => by
    rw [Fake.addImportsFor]
    cases o.pkg with
    | none => rfl
    | some pkg => exact AddImport_methods f pkg.name pkg.path
  | .slice t, f => addImportsFor_methods t f
  | .array _ t, f => addImportsFor_methods t f
  | .unknown _, _ => rfl

theorem foldl_addImportsFor_methods : ∀ (ts : List GoType) (f : Fake),
    (ts.foldl Fake.addImportsFor f).methods = f.methods
  | [], _ => rfl
  | t :: ts, f => by
    rw [List.foldl_cons, foldl_addImportsFor_methods ts, addImportsFor_methods t]

theorem addImportsForSig_methods (f : Fake) (sig : MethodSig) :
    (f.addImportsForSig sig).methods = f.methods := by
  rw [Fake.addImportsForSig, foldl_addImportsFor_methods, foldl_addImportsFor_methods]

theorem foldl_addImportsForSig_methods : ∀ (sigs : List MethodSig) (f : Fake),
    (sigs.foldl Fake.addImportsForSig f).methods = f.methods
  | [], _ => rfl
  | s :: ss, f => by
    rw [List.foldl_cons, foldl_addImportsForSig_methods ss, addImportsForSig_methods]

theorem loop_methods : ∀ (fuel : Nat) (f : Fake),
    (disambiguateLoop fuel f).methods = f.methods
  | 0, _ => rfl
  | fuel + 1, f => by
    rw [disambiguateLoop]
    by_cases hdup : hasDuplicateAliases f.imports
    · rw [if_pos hdup, loop_methods fuel, disambiguatePass_methods]
    · rw [if_neg hdup]

theorem disambiguateAliases_methods (f : Fake) :
    f.disambiguateAliases.methods = f.methods := by
  rw [Fake.disambiguateAliases]
  by_cases hdup : hasDuplicateAliases f.sortImports.imports
  · rw [if_pos hdup, loop_methods]; rfl
  · rw [if_neg hdup]; rfl

/-- C5 (counterexample): rendering an unhandled descriptor shape (here a
function type, `*types.Signature`) yields the empty string — there is no
error value at all — and `Generate` carries on, emitting a complete method
whose parameter type text is empty, rather than aborting the run. -/
theorem C5_counterexample :
    typeFor (.unknown "*types.Signature") [] = "" ∧
    (exFakeC5.generateModel [exSigC5]).methods
      = [{ fakeName := "FakeT", name := "M", params := [⟨"arg1", "", false, false⟩],
           args := "", returns := [], rets := "" }] :=
  ⟨rfl, by decide⟩

/-- C5 (amended): rendering an unknown/unhandled descriptor shape produces
the empty string (after logging a warning), not an error: `typeFor` is total
with no error channel, the same applies to a named type with a nil object,
and generation always continues — it builds one method per signature
whatever the descriptor shapes. -/
theorem C5_amended_unknown_renders_empty :
    (∀ (d : String) (m : List (String × Import)), typeFor (GoType.unknown d) m = "") ∧
    (∀ (m : List (String × Import)), typeFor (GoType.named none) m = "") ∧
    (∀ (f : Fake) (sigs : List MethodSig),
      (f.generateModel sigs).methods.length = f.methods.length + sigs.length) := by
  refine ⟨fun _ _ => rfl, fun _ => rfl, fun f sigs => ?_⟩
  show (Fake.generateModel f sigs).methods.length = _
  rw [Fake.generateModel]
  simp only [List.length_append, List.length_map]
  rw [disambiguateAliases_methods, foldl_addImportsForSig_methods]

/-- C6: `typeFor` renders by structural recursion on the descriptor shape:
pointer, slice, array (with the length printed in decimal), map, channel
(with its direction marker), basic and package-less named types as bare
names, and a named type with a defining package as `alias.Name` where the
alias is the imports-map entry registered under the type's devendorized
package path — falling back to the bare name when that path is not
registered.  (Entries of the imports map built by `importsMap` satisfy
`entry.path = key`; the `entry.path ≠ ""` hypothesis excludes only the
degenerate empty-path key, for which Go's zero-value lookup is
indistinguishable from a missing key.) -/
theorem C6_typeFor_structural (m : List (String × Import)) :
    (∀ t, typeFor (.pointer t) m = "*" ++ typeFor t m) ∧
    (∀ t, typeFor (.slice t) m = "[]" ++ typeFor t m) ∧
    (∀ (n : Int) t, typeFor (.array n t) m = "[" ++ toString n ++ "]" ++ typeFor t m) ∧
    (∀ k v, typeFor (.map k v) m = "map[" ++ typeFor k m ++ "]" ++ typeFor v m) ∧
    (∀ t, typeFor (.chan .sendRecv t) m = "chan " ++ typeFor t m) ∧
    (∀ t, typeFor (.chan .sendOnly t) m = "chan<- " ++ typeFor t m) ∧
    (∀ t, typeFor (.chan .recvOnly t) m = "<-chan " ++ typeFor t m) ∧
    (∀ name, typeFor (.basic name) m = name) ∧
    (∀ name, typeFor (.named (some ⟨name, none⟩)) m = name) ∧
    (∀ (name : String) (pkg : GoPkg) (e : String × Import),
      m.find? (fun en => en.1 = unvendor pkg.path) = some e → e.2.path ≠ "" →
      typeFor (.named (some ⟨name, some pkg⟩)) m = e.2.alias_ ++ "." ++ name) ∧
    (∀ (name : String) (pkg : GoPkg),
      m.find? (fun en => en.1 = unvendor pkg.path) = none →
      typeFor (.named (some ⟨name, some pkg⟩)) m = name) := by
  refine ⟨fun _ => rfl, fun _ => rfl, fun _ _ => rfl, fun _ _ => rfl, fun _ => rfl,
    fun _ => rfl, fun _ => rfl, fun _ => rfl, fun _ => rfl, ?_, ?_⟩
  · intro name pkg e he hne
    rw [typeFor]
    simp only [lookupImport, he]
    rw [if_neg hne]
  · intro name pkg hn
    rw [typeFor]
    simp only [lookupImport, hn]
    simp

theorem C6_witness :
    typeFor (.named (some ⟨"T", some ⟨"b", "x/vendor/a/b"⟩⟩)) exMapC6 = "mypkg.T" ∧
    typeFor (.named (some ⟨"U", some ⟨"c", "q/c"⟩⟩)) exMapC6 = "U" :=
  ⟨(C6_typeFor_structural exMapC6).2.2.2.2.2.2.2.2.2.1 "T" ⟨"b", "x/vendor/a/b"⟩
      ("a/b", ⟨"mypkg", "a/b"⟩) (by decide) (by decide),
   (C6_typeFor_structural exMapC6).2.2.2.2.2.2.2.2.2.2 "U" ⟨"c", "q/c"⟩ (by decide)⟩

/-- C7 (code_bug): the fake template is parsed with `html/template`, whose
contextual auto-escaper HTML-escapes every interpolated value, so for a
method with a receive-only channel parameter the emitted method declaration
line contains `&lt;-chan int` instead of `<-chan int` — the raw
(`runImports == false`) output is not syntactically valid source text,
contradicting the requirement that the engine not depend on the formatter
for correctness. -/
theorem C7_html_template_escapes_output :
    typeFor (.chan .recvOnly (.basic "int")) [] = "<-chan int" ∧
    htmlEscape "<-chan int" = "&lt;-chan int" ∧
    (exFakeC7.generateModel [exSigC7]).methods.map emitMethodHeader
      = ["func (fake *FakeX) M(arg1 &lt;-chan int)  \x7b"] := by
  refine ⟨by decide, by decide, by decide⟩

theorem hasDupEnum_perm {σ g : List (List Import)} (h : σ.Perm g) :
    hasDupEnum σ = hasDupEnum g := by
  rw [Bool.eq_iff_iff, hasDupEnum, hasDupEnum, List.any_eq_true, List.any_eq_true]
  constructor
  · rintro ⟨x, hx, hp⟩
    exact ⟨x, h.mem_iff.mp hx, hp⟩
  · rintro ⟨x, hx, hp⟩
    exact ⟨x, h.mem_iff.mpr hx, hp⟩

theorem hasDupEnum_aliasGroups (l : List Import) :
    hasDupEnum (aliasGroups l) = hasDuplicateAliases l := by
  rw [Bool.eq_iff_iff, hasDupEnum, hasDuplicateAliases, List.any_eq_true, List.any_eq_true]
  constructor
  · rintro ⟨g, hg, hp⟩
    rw [aliasGroups, List.mem_map] at hg
    obtain ⟨a, ha, rfl⟩ := hg
    rw [List.mem_dedup, List.mem_map] at ha
    obtain ⟨imp, himp, rfl⟩ := ha
    exact ⟨imp, himp, hp⟩
  · rintro ⟨imp, himp, hp⟩
    refine ⟨groupFor l imp.alias_, ?_, hp⟩
    rw [aliasGroups, List.mem_map]
    exact ⟨imp.alias_, List.mem_dedup.mpr (List.mem_map_of_mem _ himp), rfl⟩

theorem loopEnum_eq {E : Nat → List (List Import) → List (List Import)}
    (hE : ∀ n g, (E n g).Perm g) :
    ∀ (fuel t : Nat) (f : Fake), disambiguateLoopEnum E t fuel f = disambiguateLoop fuel f
  | 0, _, _ => rfl
  | fuel + 1, t, f => by
    rw [disambiguateLoopEnum, disambiguateLoop, hasDupEnum_perm (hE t _),
      hasDupEnum_aliasGroups]
    by_cases hdup : hasDuplicateAliases f.imports
    · rw [if_pos hdup, if_pos hdup, loopEnum_eq hE fuel]
    · rw [if_neg hdup, if_neg hdup]

theorem disambiguateAliasesEnum_eq {E : Nat → List (List Import) → List (List Import)}
    (hE : ∀ n g, (E n g).Perm g) (f : Fake) :
    f.disambiguateAliasesEnum E = f.disambiguateAliases := by
  rw [Fake.disambiguateAliasesEnum, Fake.disambiguateAliases,
    hasDupEnum_perm (hE 0 _), hasDupEnum_aliasGroups]
  by_cases hdup : hasDuplicateAliases f.sortImports.imports
  · rw [if_pos hdup, if_pos hdup, loopEnum_eq hE]
  · rw [if_neg hdup, if_neg hdup]

/-- C8: generation is deterministic.  The only place the pipeline iterates
over a Go map (whose iteration order is unspecified and may change between
runs) is `hasDuplicateAliases`; with the orders of all those iterations made
explicit, two runs of the whole generation pipeline — same interface name,
fake name, destination package, discovered type universe and method-set
order — produce identical `Fake` values whatever orders the two runs saw,
and the emitted text is a pure function of that value. -/
theorem C8_generation_deterministic
    (E1 E2 : Nat → List (List Import) → List (List Import))
    (h1 : ∀ n g, (E1 n g).Perm g) (h2 : ∀ n g, (E2 n g).Perm g)
    (f : Fake) (sigs : List MethodSig) :
    f.generateModelEnum E1 sigs = f.generateModelEnum E2 sigs := by
  rw [Fake.generateModelEnum, Fake.generateModelEnum,
    disambiguateAliasesEnum_eq h1, disambiguateAliasesEnum_eq h2]

theorem C8_witness :
    exFakeC8.generateModelEnum (fun _ g => g) [exSigC8]
      = exFakeC8.generateModelEnum (fun _ g => g.reverse) [exSigC8] :=
  C8_generation_deterministic (fun _ g => g) (fun _ g => g.reverse)
    (fun _ g => List.Perm.refl g) (fun _ g => List.reverse_perm g) exFakeC8 [exSigC8]

/-- C10: every fake returned by `NewFake` carries the import
`sync ↦ sync`, and it is the first entry of the import list: the initial
fake is seeded with exactly that import before any discovery, and the
locator's `AddImport` only ever appends (or returns an existing entry), so
the head survives. -/
theorem C10_NewFake_seeds_sync (pkgs : List LoadedPackage)
    (iname ppath fname dpkg : String) (f' : Fake)
    (h : NewFake pkgs iname ppath fname dpkg = .ok f') :
    f'.imports.head? = some { alias_ := "sync", path := "sync" } ∧
    ({ alias_ := "sync", path := "sync" } : Import) ∈ f'.imports := by
  simp only [NewFake, findPackageWithInterface] at h
  cases hfind : pkgs.find? (fun p => scopeHasTypeName p iname) with
  | none => rw [hfind] at h; simp at h
  | some pkg =>
    rw [hfind] at h
    simp only [Except.ok.injEq] at h
    rw [← h]
    by_cases hq : ("sync" : String) = unvendor (trimSpace (unvendor pkg.pkgPath))
    · constructor <;> simp [Fake.AddImport, ← hq]
    · constructor <;> simp [Fake.AddImport, if_neg hq]

theorem C10_witness :
    exFakeC10.imports.head? = some { alias_ := "sync", path := "sync" } ∧
    ({ alias_ := "sync", path := "sync" } : Import) ∈ exFakeC10.imports :=
  C10_NewFake_seeds_sync exPkgsC10 "I" "example.com/mypkg" "FakeI" "fakes" exFakeC10 rfl
